import Mathlib

/-!
Verification of the magnetophon anomaly-notification core.

This file embeds, in Lean 4 over the reals, the algorithmic core of the
magnetophon audio recorder: the Welford running-statistics accumulator
(`RunningStat`), the Abramowitz–Stegun inverse normal CDF
(`standard_normal_inverse_cdf`), the hourly weekday/weekend baseline curve,
the slow-Fourier seasonal smoother, the per-second duty-cycle activity
updates, the batch activity update, and the full per-episode statistics /
threshold / hysteresis-trigger step of the main loop.  Floating-point
doubles are modelled as real numbers; C `int` values as `ℤ` or `ℕ` as the
source uses them.  Theorems at the end settle the specification claims.
-/

open Real

set_option maxRecDepth 4000

/-- Welford online mean/variance accumulator, as in `class RunningStat`
(identical in all drafts): fields `n_`, `m_`, `s_`. -/
structure RunningStat where
  n : ℕ
  m : ℝ
  s : ℝ

/-- A fresh accumulator: `RunningStat() : n_(0)`.  The uninitialised `m_`
and `s_` are modelled as 0; they are unobservable while `n_ = 0`. -/
def RunningStat.init : RunningStat := ⟨0, 0, 0⟩

/-- `RunningStat::push` (a.k.a. `add_observation`): Welford update.
`if (!n_++) { m_ = x; s_ = 0; } else { new_m = m_ + (x-m_)/n_; ... }`. -/
noncomputable def RunningStat.push (rs : RunningStat) (x : ℝ) : RunningStat :=
  if rs.n = 0 then ⟨1, x, 0⟩
  else
    ⟨rs.n + 1,
     rs.m + (x - rs.m) / (rs.n + 1),
     rs.s + (x - rs.m) * (x - (rs.m + (x - rs.m) / (rs.n + 1)))⟩

/-- `RunningStat::mean`: `(n_ > 0) ? m_ : 0`. -/
noncomputable def RunningStat.mean (rs : RunningStat) : ℝ :=
  if 0 < rs.n then rs.m else 0

/-- `RunningStat::variance`: `(n_ > 1) ? s_ / (n_ - 1) : 0`. -/
noncomputable def RunningStat.variance (rs : RunningStat) : ℝ :=
  if 1 < rs.n then rs.s / ((rs.n - 1 : ℕ) : ℝ) else 0

/-- `RunningStat::stdev`: `sqrt(variance())`. -/
noncomputable def RunningStat.stdev (rs : RunningStat) : ℝ :=
  Real.sqrt rs.variance

/-- `RunningStat::count`: `n_`. -/
def RunningStat.count (rs : RunningStat) : ℕ := rs.n

/-- Accumulator obtained by pushing the observations of a list in order. -/
noncomputable def RunningStat.ofList (xs : List ℝ) : RunningStat :=
  xs.foldl RunningStat.push RunningStat.init

/-- Direct (two-pass) sample mean of a list. -/
noncomputable def listMean (xs : List ℝ) : ℝ := xs.sum / xs.length

/-- Sum of squared deviations of a list about a given center. -/
noncomputable def sqDevSum (xs : List ℝ) (c : ℝ) : ℝ :=
  (xs.map (fun x => (x - c) ^ 2)).sum

/-- Direct (two-pass) Bessel-corrected sample variance of a list. -/
noncomputable def listVariance (xs : List ℝ) : ℝ :=
  sqDevSum xs (listMean xs) / ((xs.length - 1 : ℕ) : ℝ)

theorem RunningStat.push_n (rs : RunningStat) (x : ℝ) :
    (rs.push x).n = rs.n + 1 := by
  unfold RunningStat.push
  split <;> simp_all

theorem sqDevSum_shift (xs : List ℝ) (a b : ℝ) :
    sqDevSum xs b =
      sqDevSum xs a + 2 * (a - b) * (xs.sum - xs.length * a)
        + xs.length * (a - b) ^ 2 := by
  induction xs with
  | nil => simp [sqDevSum]
  | cons y l ih =>
      simp only [sqDevSum, List.map_cons, List.sum_cons, List.length_cons] at *
      push_cast
      rw [ih]
      ring

theorem ofList_invariant (xs : List ℝ) :
    (RunningStat.ofList xs).n = xs.length ∧
      (xs ≠ [] →
        (RunningStat.ofList xs).m = listMean xs ∧
        (RunningStat.ofList xs).s = sqDevSum xs (listMean xs)) := by
  induction xs using List.reverseRecOn with
  | nil => simp [RunningStat.ofList, RunningStat.init]
  | append_singleton l x ih =>
      have hfold : RunningStat.ofList (l ++ [x]) =
          (RunningStat.ofList l).push x := by
        simp [RunningStat.ofList, List.foldl_append]
      rcases ih with ⟨ihn, ihm⟩
      rcases l with _ | ⟨y, l'⟩
      · constructor
        · simp [hfold, RunningStat.ofList, RunningStat.init, RunningStat.push]
        · intro _
          constructor
          · simp [hfold, RunningStat.ofList, RunningStat.init,
              RunningStat.push, listMean]
          · simp [hfold, RunningStat.ofList, RunningStat.init,
              RunningStat.push, listMean, sqDevSum]
      · -- nonempty prefix: Welford step preserves mean and sum of squares
        set l0 : List ℝ := y :: l' with hl0
        have hne : l0 ≠ [] := by simp [hl0]
        obtain ⟨ihm', ihs'⟩ := ihm hne
        have hnpos : 0 < l0.length := by simp [hl0]
        have hn0 : (RunningStat.ofList l0).n ≠ 0 := by
          rw [ihn]; omega
        set n : ℕ := l0.length with hn
        have hnR : ((n : ℝ)) ≠ 0 := by
          exact_mod_cast Nat.pos_iff_ne_zero.mp hnpos
        have hn1R : ((n : ℝ) + 1) ≠ 0 := by positivity
        have hpush : RunningStat.ofList (l0 ++ [x]) =
            ⟨n + 1,
             (RunningStat.ofList l0).m
               + (x - (RunningStat.ofList l0).m) / (n + 1),
             (RunningStat.ofList l0).s
               + (x - (RunningStat.ofList l0).m)
                 * (x - ((RunningStat.ofList l0).m
                     + (x - (RunningStat.ofList l0).m) / (n + 1)))⟩ := by
          rw [hfold]
          unfold RunningStat.push
          rw [if_neg hn0, ihn]
        have hsum : l0.sum = n * listMean l0 := by
          unfold listMean
          field_simp
        have hmean_app : listMean (l0 ++ [x]) = (l0.sum + x) / (n + 1) := by
          unfold listMean
          simp [hn]
        have hm_new : (RunningStat.ofList l0).m
              + (x - (RunningStat.ofList l0).m) / (n + 1)
            = listMean (l0 ++ [x]) := by
          rw [ihm', hmean_app, hsum]
          field_simp
          ring
        refine ⟨by simp [hpush, hn], fun _ => ⟨by rw [hpush]; exact hm_new, ?_⟩⟩
        rw [hpush]
        simp only
        have hsq_app : sqDevSum (l0 ++ [x]) (listMean (l0 ++ [x]))
            = sqDevSum l0 (listMean (l0 ++ [x]))
              + (x - listMean (l0 ++ [x])) ^ 2 := by
          unfold sqDevSum
          simp
        rw [hsq_app,
          sqDevSum_shift l0 (listMean l0) (listMean (l0 ++ [x])), ihs']
        have hzero : l0.sum - (l0.length : ℝ) * listMean l0 = 0 := by
          rw [← hn, hsum]; ring
        rw [hzero]
        rw [← hm_new, ihm']
        set m : ℝ := listMean l0
        rw [← hn]
        field_simp
        ring

/-- C4: pushing a finite sequence of observations one at a time into the
running-statistics accumulator yields exactly the direct two-pass sample
mean and the direct Bessel-corrected sample variance (real arithmetic). -/
theorem welford_matches_two_pass (xs : List ℝ) :
    (RunningStat.ofList xs).mean = listMean xs ∧
      (RunningStat.ofList xs).variance = listVariance xs := by
  obtain ⟨hn, hrest⟩ := ofList_invariant xs
  rcases xs with _ | ⟨y, l⟩
  · constructor
    · simp [RunningStat.ofList, RunningStat.init, RunningStat.mean, listMean]
    · simp [RunningStat.ofList, RunningStat.init, RunningStat.variance,
        listVariance, sqDevSum, listMean]
  · obtain ⟨hm, hs⟩ := hrest (by simp)
    constructor
    · unfold RunningStat.mean
      rw [if_pos (by rw [hn]; simp), hm]
    · unfold RunningStat.variance listVariance
      by_cases h2 : 1 < (y :: l).length
      · rw [if_pos (by rw [hn]; exact h2), hs, hn]
      · rw [if_neg (by rw [hn]; exact h2)]
        have hl : l = [] := by
          rcases l with _ | _ <;> simp_all
        subst hl
        simp [sqDevSum, listMean]

/-! ### Inverse normal CDF (Abramowitz and Stegun 26.2.23) -/

/-- The rational approximation
`t - ((0.010328*t + 0.802853)*t + 2.515517) /
     (((0.001308*t + 0.189269)*t + 1.432788)*t + 1)`
from `standard_normal_inverse_cdf`. -/
noncomputable def ratApprox (t : ℝ) : ℝ :=
  t - ((0.010328 * t + 0.802853) * t + 2.515517) /
    (((0.001308 * t + 0.189269) * t + 1.432788) * t + 1)

/-- `standard_normal_inverse_cdf` as in both drafts that define it:
`if (p <= 0 || p >= 1) return 0;` then
`t = sqrt(-2*log((p < 0.5) ? p : 1 - p))` and the signed rational
approximation. -/
noncomputable def standard_normal_inverse_cdf (p : ℝ) : ℝ :=
  if p ≤ 0 ∨ 1 ≤ p then 0
  else if p < 0.5 then - ratApprox (Real.sqrt (-2 * Real.log p))
  else ratApprox (Real.sqrt (-2 * Real.log (1 - p)))

/-- The denominator of the rational approximation is at least 1 for `t ≥ 0`. -/
theorem ratApprox_den_pos {t : ℝ} (ht : 0 ≤ t) :
    0 < ((0.001308 * t + 0.189269) * t + 1.432788) * t + 1 := by
  nlinarith [sq_nonneg t, mul_nonneg (mul_nonneg ht ht) ht]

/-- For `t² ≥ 1.3868499` (and `t ≥ 0`) the rational approximation is
nonnegative: the quartic `t*D(t) - N(t)` has positive non-constant
coefficients and is already positive at `t = 1.177645`. -/
theorem ratApprox_nonneg {t : ℝ} (ht : 0 ≤ t) (ht2 : 1.3868499 ≤ t ^ 2) :
    0 ≤ ratApprox t := by
  have hD := ratApprox_den_pos ht
  have ha : (1.177645 : ℝ) ≤ t := by
    by_contra hcon
    push_neg at hcon
    nlinarith
  unfold ratApprox
  rw [sub_nonneg, div_le_iff₀ hD]
  nlinarith [pow_le_pow_left₀ (by norm_num : (0 : ℝ) ≤ 1.177645) ha 2,
    pow_le_pow_left₀ (by norm_num : (0 : ℝ) ≤ 1.177645) ha 3,
    pow_le_pow_left₀ (by norm_num : (0 : ℝ) ≤ 1.177645) ha 4]

/-- For `t² ≥ 15.2` (and `t ≥ 0`) the rational approximation exceeds 1. -/
theorem ratApprox_gt_one {t : ℝ} (ht : 0 ≤ t) (ht2 : 15.2 ≤ t ^ 2) :
    1 < ratApprox t := by
  have hD := ratApprox_den_pos ht
  have ht38 : 3.8 ≤ t := by nlinarith
  have key : (0.010328 * t + 0.802853) * t + 2.515517
      < (t - 1) * ((((0.001308 * t + 0.189269) * t + 1.432788) * t) + 1) := by
    nlinarith [mul_nonneg (mul_nonneg ht ht) ht,
      mul_nonneg (mul_nonneg (mul_nonneg ht ht) ht) ht]
  have hdiv : ((0.010328 * t + 0.802853) * t + 2.515517) /
      ((((0.001308 * t + 0.189269) * t + 1.432788) * t) + 1) < t - 1 :=
    (div_lt_iff₀ hD).mpr key
  unfold ratApprox
  linarith

/-- If `0 < p ≤ 3599/7200` (the worst per-event exceedance probability
reachable during cold start with a return period of at least 2 hours) then
the code's z-score `inverse_cdf(1-p)` is nonnegative. -/
theorem inverse_cdf_one_sub_nonneg {p : ℝ} (h0 : 0 ≤ p)
    (h4 : p ≤ 3599 / 7200) :
    0 ≤ standard_normal_inverse_cdf (1 - p) := by
  rcases eq_or_lt_of_le h0 with h | hpos
  · rw [← h]
    simp [standard_normal_inverse_cdf]
  · unfold standard_normal_inverse_cdf
    rw [if_neg (by push_neg; constructor <;> nlinarith),
      if_neg (by push_neg; nlinarith)]
    have hlog : Real.log p ≤ Real.log (3599 / 7200) := by
      rcases eq_or_lt_of_le h4 with h | h
      · rw [h]
      · exact le_of_lt (Real.log_lt_log hpos h)
    have hsplit : Real.log (3599 / 7200 : ℝ)
        = Real.log (3599 / 3600 : ℝ) - Real.log 2 := by
      rw [show (3599 / 7200 : ℝ) = (3599 / 3600) / 2 by norm_num,
        Real.log_div (by norm_num) (by norm_num)]
    have hsmall : Real.log (3599 / 3600 : ℝ) ≤ -(1 / 3600) := by
      have := Real.log_le_sub_one_of_pos (show (0 : ℝ) < 3599 / 3600 by norm_num)
      linarith
    have harg : 1.3868499 ≤ -2 * Real.log p := by
      have h2 := Real.log_two_gt_d9
      rw [hsplit] at hlog
      nlinarith
    have harg0 : 0 ≤ -2 * Real.log p := by linarith
    have h1 : (1 : ℝ) - (1 - p) = p := by ring
    rw [h1]
    exact ratApprox_nonneg (Real.sqrt_nonneg _)
      (by rw [Real.sq_sqrt harg0]; exact harg)

/-- C9: for `p ≤ 0` or `p ≥ 1` the inverse CDF returns exactly 0. -/
theorem inverse_cdf_degenerate_zero (p : ℝ) (h : p ≤ 0 ∨ 1 ≤ p) :
    standard_normal_inverse_cdf p = 0 := by
  unfold standard_normal_inverse_cdf
  rw [if_pos h]

/-- Witness for C9 at the concrete degenerate input `p = 2`. -/
theorem inverse_cdf_degenerate_zero_witness :
    standard_normal_inverse_cdf 2 = 0 :=
  inverse_cdf_degenerate_zero 2 (Or.inr (by norm_num))

/-- On `(0,1)` away from `1/2`, the two branches of the inverse CDF use the
same `t` and opposite signs, so the symmetry identity is exact. -/
theorem inverse_cdf_symm_aux {p : ℝ} (h0 : 0 < p) (hhalf : p < 0.5) :
    standard_normal_inverse_cdf p
      = - standard_normal_inverse_cdf (1 - p) := by
  have hp1 : p < 1 := by norm_num at hhalf ⊢; linarith
  have e1 : standard_normal_inverse_cdf p
      = - ratApprox (Real.sqrt (-2 * Real.log p)) := by
    unfold standard_normal_inverse_cdf
    rw [if_neg (by push_neg; constructor <;> linarith), if_pos hhalf]
  have e2 : standard_normal_inverse_cdf (1 - p)
      = ratApprox (Real.sqrt (-2 * Real.log p)) := by
    unfold standard_normal_inverse_cdf
    rw [if_neg (by push_neg; constructor <;> linarith),
      if_neg (by norm_num at hhalf ⊢; linarith),
      show (1 : ℝ) - (1 - p) = p by ring]
  rw [e1, e2]

/-- C10 (amended): the symmetry `inverse_cdf(p) = -inverse_cdf(1-p)` holds
exactly for every `p ∈ (0,1)` with `p ≠ 1/2`. -/
theorem inverse_cdf_symmetry (p : ℝ) (h0 : 0 < p) (h1 : p < 1)
    (hne : p ≠ 1 / 2) :
    standard_normal_inverse_cdf p
      = - standard_normal_inverse_cdf (1 - p) := by
  rcases lt_or_gt_of_ne hne with h | h
  · exact inverse_cdf_symm_aux h0 (by norm_num; linarith)
  · have h' : 1 - p < 0.5 := by norm_num; linarith
    have h0' : 0 < 1 - p := by linarith
    have := inverse_cdf_symm_aux h0' h'
    rw [show (1 : ℝ) - (1 - p) = p by ring] at this
    linarith [this]

/-- Witness for the amended C10 at `p = 1/4`. -/
theorem inverse_cdf_symmetry_witness :
    standard_normal_inverse_cdf (1 / 4)
      = - standard_normal_inverse_cdf (1 - 1 / 4) :=
  inverse_cdf_symmetry (1 / 4) (by norm_num) (by norm_num) (by norm_num)

/-- At `t = sqrt(2 log 2)` (the value used for `p = 1/2`) the rational
approximation is strictly negative: about `-1.01e-7`. -/
theorem ratApprox_at_half_neg :
    ratApprox (Real.sqrt (-2 * Real.log (1 - 0.5))) < 0 := by
  have hlog : Real.log (1 - 0.5) = -Real.log 2 := by
    rw [show (1 - 0.5 : ℝ) = 2⁻¹ by norm_num, Real.log_inv]
  have harg : -2 * Real.log (1 - 0.5) = 2 * Real.log 2 := by
    rw [hlog]; ring
  set t : ℝ := Real.sqrt (-2 * Real.log (1 - 0.5)) with hts
  have ht0 : 0 ≤ t := Real.sqrt_nonneg _
  have hlog2hi := Real.log_two_lt_d9
  have hlog2lo := Real.log_two_gt_d9
  have hb : t ≤ 1.1774100230 := by
    rw [hts, harg]
    rw [show (1.1774100230 : ℝ) = Real.sqrt (1.1774100230 ^ 2) from
      (Real.sqrt_sq (by norm_num)).symm]
    apply Real.sqrt_le_sqrt
    nlinarith
  have hD := ratApprox_den_pos ht0
  unfold ratApprox
  rw [sub_neg, lt_div_iff₀ hD]
  -- the quartic `t*D(t) - N(t)` is increasing in `t ≥ 0` (positive
  -- non-constant coefficients) and is negative at the upper bound
  nlinarith [pow_le_pow_left₀ ht0 hb 2, pow_le_pow_left₀ ht0 hb 3,
    pow_le_pow_left₀ ht0 hb 4, sq_nonneg t]

/-- C10 (counterexample): at `p = 1/2` the claimed identity
`inverse_cdf(p) = -inverse_cdf(1-p)` fails — equivalently
`inverse_cdf(0.5) ≠ 0` (it is ≈ `-1.01e-7`). -/
theorem inverse_cdf_not_symmetric_at_half :
    ¬ (standard_normal_inverse_cdf (1 / 2)
        = - standard_normal_inverse_cdf (1 - 1 / 2)) := by
  intro h
  rw [show (1 : ℝ) - 1 / 2 = 1 / 2 by norm_num] at h
  have hzero : standard_normal_inverse_cdf (1 / 2) = 0 := by linarith
  have hneg : standard_normal_inverse_cdf (1 / 2) < 0 := by
    unfold standard_normal_inverse_cdf
    rw [if_neg (by push_neg; constructor <;> norm_num),
      if_neg (by push_neg; norm_num)]
    rw [show (1 : ℝ) - 1 / 2 = 1 - 0.5 by norm_num]
    exact ratApprox_at_half_neg
  linarith

/-! ### The Fourier-draft main (`src/unnamed/part_001`) -/

namespace P001

/-- `business_update` of the Fourier draft: guard on negative durations,
`activity = sqrt(sqrt(seconds_on))`, exponential-decay blend with
`tail_weight = (1-decay)^(seconds_on+seconds_off)`. -/
noncomputable def business_update (business : ℝ) (seconds_on seconds_off : ℤ)
    (decay : ℝ) : ℝ :=
  if seconds_on < 0 ∨ seconds_off < 0 then business
  else
    (1 - (1 - decay) ^ (seconds_on + seconds_off).toNat)
        * Real.sqrt (Real.sqrt (seconds_on : ℝ))
      + (1 - decay) ^ (seconds_on + seconds_off).toNat * business

/-- `events_per_hour` as the Fourier draft computes it:
`3600. * history_events / (history_seconds + 1.)`. -/
noncomputable def events_per_hour (history_events history_seconds : ℕ) : ℝ :=
  3600 * (history_events : ℝ) / ((history_seconds : ℝ) + 1)

/-- The spec's description of the event rate, for comparison:
3600 times the running episode count divided by the elapsed seconds. -/
noncomputable def events_per_hour_spec (history_events history_seconds : ℕ) : ℝ :=
  3600 * (history_events : ℝ) / (history_seconds : ℝ)

/-- The Fourier draft's threshold:
`p = 1/(events_per_hour * return_period)`;
`threshold = interpolated_mean + inverse_cdf(1-p) * interpolated_stdev`. -/
noncomputable def thresholdCalc (interpolated_mean interpolated_stdev : ℝ)
    (history_events history_seconds return_period : ℕ) : ℝ :=
  interpolated_mean
    + standard_normal_inverse_cdf
        (1 - 1 / (events_per_hour history_events history_seconds
                    * (return_period : ℝ)))
      * interpolated_stdev

/-- `class BaselineBusinessCurve` of the Fourier draft: an overall
accumulator plus 24 weekday and 24 weekend hourly buckets. -/
structure BaselineBusinessCurve where
  overall_ : RunningStat
  weekday_ : Fin 24 → RunningStat
  weekend_ : Fin 24 → RunningStat

/-- `BaselineBusinessCurve::push`: push into the overall accumulator and
into the weekend bucket of the hour if `tm_wday` is 0 (Sunday) or 6
(Saturday), else into the weekday bucket of the hour. -/
noncomputable def BaselineBusinessCurve.push (c : BaselineBusinessCurve)
    (x : ℝ) (tm_wday : ℕ) (tm_hour : Fin 24) : BaselineBusinessCurve :=
  if tm_wday = 0 ∨ tm_wday = 6 then
    { c with overall_ := c.overall_.push x
           , weekend_ := Function.update c.weekend_ tm_hour
               ((c.weekend_ tm_hour).push x) }
  else
    { c with overall_ := c.overall_.push x
           , weekday_ := Function.update c.weekday_ tm_hour
               ((c.weekday_ tm_hour).push x) }

/-- An empty curve (process start before any replay). -/
def emptyCurve : BaselineBusinessCurve :=
  ⟨RunningStat.init, fun _ => RunningStat.init, fun _ => RunningStat.init⟩

end P001

/-- C2 (counterexample): the code divides by `history_seconds + 1`, not by
`history_seconds`: with 1 episode over 3600 s it yields 3600/3601, not 1. -/
theorem events_per_hour_not_as_specified :
    P001.events_per_hour 1 3600 ≠ P001.events_per_hour_spec 1 3600 := by
  unfold P001.events_per_hour P001.events_per_hour_spec
  norm_num

/-- C2 (amended): with a positive episode count and return period, the
trigger threshold equals `mean + inverse_cdf(1-p) * stdev` where
`p = 1/(events_per_hour * return_period)` and
`events_per_hour = 3600 * history_events / (history_seconds + 1)`. -/
theorem threshold_formula (m sd : ℝ) (ev sec rp : ℕ)
    (hev : 0 < ev) (hrp : 0 < rp) :
    P001.events_per_hour ev sec = 3600 * (ev : ℝ) / ((sec : ℝ) + 1)
    ∧ P001.thresholdCalc m sd ev sec rp
        = m + standard_normal_inverse_cdf
            (1 - ((sec : ℝ) + 1) / (3600 * (ev : ℝ) * (rp : ℝ))) * sd := by
  refine ⟨rfl, ?_⟩
  unfold P001.thresholdCalc P001.events_per_hour
  have hevR : (0 : ℝ) < (ev : ℝ) := by exact_mod_cast hev
  have hrpR : (0 : ℝ) < (rp : ℝ) := by exact_mod_cast hrp
  have hsec : (0 : ℝ) < (sec : ℝ) + 1 := by positivity
  congr 2
  field_simp

/-- Witness for the amended C2 at concrete inputs. -/
theorem threshold_formula_witness :
    P001.events_per_hour 1 0 = 3600 * ((1 : ℕ) : ℝ) / (((0 : ℕ) : ℝ) + 1)
    ∧ P001.thresholdCalc 0 1 1 0 1
        = 0 + standard_normal_inverse_cdf
            (1 - (((0 : ℕ) : ℝ) + 1) / (3600 * ((1 : ℕ) : ℝ) * ((1 : ℕ) : ℝ)))
          * 1 :=
  threshold_formula 0 1 1 0 1 (by norm_num) (by norm_num)

/-- C6: recording an observation on a Sunday (`tm_wday = 0`) at hour 13
updates only `weekend[13]` among the 48 hourly buckets — its count grows by
one — while every weekday bucket and every other weekend bucket is
unchanged. -/
theorem bucket_routing_sunday_13 (c : P001.BaselineBusinessCurve) (x : ℝ) :
    ((c.push x 0 13).weekend_ 13).n = (c.weekend_ 13).n + 1
    ∧ (∀ h : Fin 24, (c.push x 0 13).weekday_ h = c.weekday_ h)
    ∧ (∀ h : Fin 24, h ≠ 13 → (c.push x 0 13).weekend_ h = c.weekend_ h) := by
  unfold P001.BaselineBusinessCurve.push
  rw [if_pos (Or.inl rfl)]
  refine ⟨?_, fun h => rfl, fun h hne => ?_⟩
  · simp [Function.update_same, RunningStat.push_n]
  · simp [Function.update_noteq hne]

/-- Witness for C6 on the empty curve. -/
theorem bucket_routing_sunday_13_witness :
    ((P001.emptyCurve.push 1 0 13).weekend_ 13).n
        = (P001.emptyCurve.weekend_ 13).n + 1
    ∧ (P001.emptyCurve.push 1 0 13).weekday_ 5 = P001.emptyCurve.weekday_ 5
    ∧ (P001.emptyCurve.push 1 0 13).weekend_ 5 = P001.emptyCurve.weekend_ 5 :=
  ⟨(bucket_routing_sunday_13 P001.emptyCurve 1).1,
   (bucket_routing_sunday_13 P001.emptyCurve 1).2.1 5,
   (bucket_routing_sunday_13 P001.emptyCurve 1).2.2 5 (by decide)⟩

namespace P001

/-- Forward slow Fourier transform, real part: for harmonic `k`,
`frequency_domain[k] = sum over h < 24 of f(h) * cos(pi*k*h/24)` where
`f h` is the h-th hourly bucket mean (or stdev). -/
noncomputable def freqRe (f : ℕ → ℝ) (k : ℕ) : ℝ :=
  ∑ h ∈ Finset.range 24, f h * Real.cos (Real.pi * k * h / 24)

/-- Forward slow Fourier transform, imaginary part:
`frequency_domain[k+1] = sum over h < 24 of f(h) * sin(pi*k*h/24)`. -/
noncomputable def freqIm (f : ℕ → ℝ) (k : ℕ) : ℝ :=
  ∑ h ∈ Finset.range 24, f h * Real.sin (Real.pi * k * h / 24)

/-- Inverse slow Fourier transform at fractional hour `t`: sum over the
even harmonics `k = 0,2,4,6` of `(k > 1 ? 2 : 1) * (Re_k cos(pi*k*t/24) +
Im_k sin(pi*k*t/24))`, divided by 24. -/
noncomputable def smoothedAt (f : ℕ → ℝ) (t : ℝ) : ℝ :=
  (∑ k ∈ ({0, 2, 4, 6} : Finset ℕ),
      (if 1 < k then (2 : ℝ) else 1)
        * (freqRe f k * Real.cos (Real.pi * k * t / 24)
            + freqIm f k * Real.sin (Real.pi * k * t / 24))) / 24

end P001

theorem sum_exp_harmonic_eq_zero (k : ℕ) (hk0 : 0 < k) (hk48 : k < 48)
    (hke : Even k) :
    ∑ h ∈ Finset.range 24,
        Complex.exp ((Real.pi * k * h / 24 : ℝ) * Complex.I) = 0 := by
  set z : ℂ := Complex.exp ((Real.pi * k / 24 : ℝ) * Complex.I) with hz
  have hterm : ∀ h : ℕ,
      Complex.exp ((Real.pi * k * h / 24 : ℝ) * Complex.I) = z ^ h := by
    intro h
    rw [hz, ← Complex.exp_nat_mul]
    congr 1
    push_cast
    ring
  have hz1 : z ≠ 1 := by
    rw [hz]
    intro hcon
    obtain ⟨n, hn⟩ := Complex.exp_eq_one_iff.mp hcon
    have him : (Real.pi * k / 24 : ℝ) = (n : ℝ) * (2 * Real.pi) := by
      have := congrArg Complex.im hn
      simpa using this
    have hkn : (k : ℝ) = 48 * (n : ℝ) := by
      have hpi := Real.pi_ne_zero
      field_simp at him
      nlinarith [him, Real.pi_pos]
    have : (k : ℤ) = 48 * n := by exact_mod_cast hkn
    omega
  have hz24 : z ^ 24 = 1 := by
    rw [hz, ← Complex.exp_nat_mul]
    obtain ⟨j, hj⟩ := hke
    have h24 : ((24 : ℕ) : ℂ) * ((Real.pi * k / 24 : ℝ) * Complex.I)
        = (j : ℕ) * (2 * Real.pi * Complex.I) := by
      push_cast [hj]
      ring
    rw [h24, Complex.exp_nat_mul, Complex.exp_two_pi_mul_I, one_pow]
  calc ∑ h ∈ Finset.range 24,
        Complex.exp ((Real.pi * k * h / 24 : ℝ) * Complex.I)
      = ∑ h ∈ Finset.range 24, z ^ h := by
        exact Finset.sum_congr rfl fun h _ => hterm h
    _ = (z ^ 24 - 1) / (z - 1) := geom_sum_eq hz1 24
    _ = 0 := by rw [hz24]; simp

theorem sum_cos_harmonic_eq_zero (k : ℕ) (hk0 : 0 < k) (hk48 : k < 48)
    (hke : Even k) :
    ∑ h ∈ Finset.range 24, Real.cos (Real.pi * k * h / 24) = 0 := by
  have := congrArg Complex.re (sum_exp_harmonic_eq_zero k hk0 hk48 hke)
  rw [Complex.re_sum] at this
  simp only [Complex.exp_ofReal_mul_I_re] at this
  simpa using this

theorem sum_sin_harmonic_eq_zero (k : ℕ) (hk0 : 0 < k) (hk48 : k < 48)
    (hke : Even k) :
    ∑ h ∈ Finset.range 24, Real.sin (Real.pi * k * h / 24) = 0 := by
  have := congrArg Complex.im (sum_exp_harmonic_eq_zero k hk0 hk48 hke)
  rw [Complex.im_sum] at this
  simp only [Complex.exp_ofReal_mul_I_im] at this
  simpa using this

/-- C5: if all 24 hourly bucket means equal the constant `c`, the slow
Fourier transform followed by the inverse reconstruction returns exactly
`c` at every fractional hour `t ∈ [0,24)`: the DC-only signal passes the
low-pass filter unchanged. -/
theorem fourier_round_trip_constant (f : ℕ → ℝ) (c : ℝ) (t : ℝ)
    (hf : ∀ h < 24, f h = c) (ht0 : 0 ≤ t) (ht24 : t < 24) :
    P001.smoothedAt f t = c := by
  have hRe : ∀ k : ℕ, P001.freqRe f k
      = c * ∑ h ∈ Finset.range 24, Real.cos (Real.pi * k * h / 24) := by
    intro k
    unfold P001.freqRe
    rw [Finset.mul_sum]
    refine Finset.sum_congr rfl fun h hh => ?_
    rw [hf h (Finset.mem_range.mp hh)]
  have hIm : ∀ k : ℕ, P001.freqIm f k
      = c * ∑ h ∈ Finset.range 24, Real.sin (Real.pi * k * h / 24) := by
    intro k
    unfold P001.freqIm
    rw [Finset.mul_sum]
    refine Finset.sum_congr rfl fun h hh => ?_
    rw [hf h (Finset.mem_range.mp hh)]
  have hRe0 : P001.freqRe f 0 = 24 * c := by
    rw [hRe]
    norm_num
    ring
  have hIm0 : P001.freqIm f 0 = 0 := by
    rw [hIm]
    norm_num
  have hReK : ∀ k : ℕ, 0 < k → k < 48 → Even k → P001.freqRe f k = 0 := by
    intro k h1 h2 h3
    rw [hRe, sum_cos_harmonic_eq_zero k h1 h2 h3, mul_zero]
  have hImK : ∀ k : ℕ, 0 < k → k < 48 → Even k → P001.freqIm f k = 0 := by
    intro k h1 h2 h3
    rw [hIm, sum_sin_harmonic_eq_zero k h1 h2 h3, mul_zero]
  unfold P001.smoothedAt
  rw [show ({0, 2, 4, 6} : Finset ℕ) = insert 0 (insert 2 (insert 4 {6}))
      from rfl]
  rw [Finset.sum_insert (by decide), Finset.sum_insert (by decide),
    Finset.sum_insert (by decide), Finset.sum_singleton]
  rw [hRe0, hIm0,
    hReK 2 (by norm_num) (by norm_num) (by decide),
    hImK 2 (by norm_num) (by norm_num) (by decide),
    hReK 4 (by norm_num) (by norm_num) (by decide),
    hImK 4 (by norm_num) (by norm_num) (by decide),
    hReK 6 (by norm_num) (by norm_num) (by decide),
    hImK 6 (by norm_num) (by norm_num) (by decide)]
  push_cast
  rw [show Real.pi * 0 * t / 24 = 0 by ring, Real.cos_zero, Real.sin_zero]
  norm_num

/-- Witness for C5 at `c = 7`, `t = 13/2`. -/
theorem fourier_round_trip_constant_witness :
    P001.smoothedAt (fun _ => 7) (13 / 2) = 7 :=
  fourier_round_trip_constant (fun _ => 7) 7 (13 / 2)
    (fun _ _ => rfl) (by norm_num) (by norm_num)

/-! ### The duty-cycle drafts (`magnetophon.cpp`) -/

namespace MagB

/-- One idle second: `business -= business * decay`. -/
noncomputable def idleStep (decay b : ℝ) : ℝ := b - b * decay

/-- One active second: `business += (1 - business) * decay`. -/
noncomputable def activeStep (decay b : ℝ) : ℝ := b + (1 - b) * decay

/-- A one-second update of either kind, for arbitrary interleavings. -/
inductive SecKind where
  | idle : SecKind
  | active : SecKind

/-- Apply a sequence of per-second updates to the activity level. -/
noncomputable def runSeconds (decay : ℝ) (b : ℝ) (l : List SecKind) : ℝ :=
  l.foldl (fun acc k => match k with
    | SecKind.idle => idleStep decay acc
    | SecKind.active => activeStep decay acc) b

/-- The business value after one episode's two per-second loops:
`seconds_of_silence` idle updates then `seconds_of_activity` active
updates; a negative duration gives a loop of zero iterations. -/
noncomputable def businessAfterEpisode (decay b : ℝ)
    (seconds_of_silence seconds_of_activity : ℤ) : ℝ :=
  (activeStep decay)^[seconds_of_activity.toNat]
    ((idleStep decay)^[seconds_of_silence.toNat] b)

end MagB

/-- C7 (counterexample): under the duty-cycle formulation an update with a
negative idle duration but a positive active duration is not a no-op: from
level 0, `idle = -1`, `active = 1`, `decay = 1/2` the level becomes 1/2. -/
theorem duty_cycle_negative_duration_not_noop :
    (-1 : ℤ) < 0
    ∧ ¬ (MagB.businessAfterEpisode (1 / 2) 0 (-1) 1 = 0) := by
  constructor
  · norm_num
  · unfold MagB.businessAfterEpisode
    rw [show ((-1 : ℤ)).toNat = 0 from rfl, show ((1 : ℤ)).toNat = 1 from rfl]
    simp only [Function.iterate_zero_apply, Function.iterate_one]
    norm_num [MagB.activeStep]

/-- C7 (amended): the batch-decay formulation returns the level unchanged
whenever either duration is negative; the duty-cycle formulation merely
skips the per-second loop of a negative duration, so its update leaves the
level unchanged only when both durations are nonpositive. -/
theorem negative_duration_handling :
    (∀ (b : ℝ) (s_on s_off : ℤ) (d : ℝ),
        s_on < 0 ∨ s_off < 0 → P001.business_update b s_on s_off d = b)
    ∧ (∀ (b : ℝ) (sil act : ℤ) (d : ℝ),
        sil ≤ 0 → act ≤ 0 → MagB.businessAfterEpisode d b sil act = b) := by
  constructor
  · intro b s_on s_off d h
    unfold P001.business_update
    rw [if_pos h]
  · intro b sil act d hsil hact
    unfold MagB.businessAfterEpisode
    rw [Int.toNat_of_nonpos hsil, Int.toNat_of_nonpos hact]
    simp

/-- Witness for the amended C7 at concrete inputs. -/
theorem negative_duration_handling_witness :
    P001.business_update 5 (-3) 7 (1 / 2) = 5
    ∧ MagB.businessAfterEpisode (1 / 2) 5 (-3) (-4) = 5 :=
  ⟨negative_duration_handling.1 5 (-3) 7 (1 / 2) (Or.inl (by norm_num)),
   negative_duration_handling.2 5 (-3) (-4) (1 / 2)
     (by norm_num) (by norm_num)⟩

/-- C8 (counterexample): with `decay = 1` (allowed by the claim's interval
`(0,1]` and producible by the CLI as `1/1`), a single active second takes
the level from 0 exactly to 1, leaving the claimed invariant set `[0,1)`. -/
theorem duty_cycle_level_reaches_one :
    (0 : ℝ) < 1 ∧ (1 : ℝ) ≤ 1 ∧ (0 : ℝ) ≤ 0 ∧ (0 : ℝ) < 1
    ∧ ¬ (MagB.runSeconds 1 0 [MagB.SecKind.active] < 1) := by
  refine ⟨by norm_num, le_refl 1, le_refl 0, by norm_num, ?_⟩
  unfold MagB.runSeconds
  norm_num [MagB.activeStep]

/-- C8 (amended): for every decay in the open interval `(0,1)` and every
starting level in `[0,1)`, any finite sequence of per-second idle and
active updates, in any order, keeps the level in `[0,1)`. -/
theorem duty_cycle_level_invariant (d b : ℝ) (hd0 : 0 < d) (hd1 : d < 1)
    (hb0 : 0 ≤ b) (hb1 : b < 1) (l : List MagB.SecKind) :
    0 ≤ MagB.runSeconds d b l ∧ MagB.runSeconds d b l < 1 := by
  induction l generalizing b with
  | nil => exact ⟨hb0, hb1⟩
  | cons k rest ih =>
      rcases k with _ | _
      · have h0 : 0 ≤ MagB.idleStep d b := by
          unfold MagB.idleStep
          nlinarith
        have h1 : MagB.idleStep d b < 1 := by
          unfold MagB.idleStep
          nlinarith
        simpa [MagB.runSeconds] using ih (MagB.idleStep d b) h0 h1
      · have h0 : 0 ≤ MagB.activeStep d b := by
          unfold MagB.activeStep
          nlinarith
        have h1 : MagB.activeStep d b < 1 := by
          unfold MagB.activeStep
          nlinarith
        simpa [MagB.runSeconds] using ih (MagB.activeStep d b) h0 h1

/-- Witness for the amended C8 at concrete inputs. -/
theorem duty_cycle_level_invariant_witness :
    0 ≤ MagB.runSeconds (1 / 2) 0 [MagB.SecKind.active, MagB.SecKind.idle]
    ∧ MagB.runSeconds (1 / 2) 0 [MagB.SecKind.active, MagB.SecKind.idle] < 1 :=
  duty_cycle_level_invariant (1 / 2) 0 (by norm_num) (by norm_num)
    (le_refl 0) (by norm_num) _

namespace MagB

/-- One episode, as delivered to the statistics block of the main loop:
local weekday (`tm_wday`, 0 = Sunday), hour, minute of the recording start,
and the two durations (C `int`s, so modelled as `ℤ`). -/
structure Ep where
  wday : ℕ
  hour : Fin 24
  minute : ℕ
  silence : ℤ
  activity : ℤ

/-- The mutable state of the main loop of the draft with `overall_stat`:
the activity level `business`, the 24+24 hourly buckets, the overall
accumulator, the episode counter `overall_events`, and the trigger flag. -/
structure MState where
  business : ℝ
  weekday : Fin 24 → RunningStat
  weekend : Fin 24 → RunningStat
  overall : RunningStat
  overallEvents : ℕ
  triggered : Bool

/-- Fresh start: `business = 0`, empty statistics, `triggered = false`. -/
def initState : MState :=
  ⟨0, fun _ => RunningStat.init, fun _ => RunningStat.init,
   RunningStat.init, 0, false⟩

/-- The silence loop: per idle second, update `business` and push the new
value into the episode's hourly bucket and into the overall accumulator. -/
noncomputable def silenceLoop (decay : ℝ) :
    ℕ → ℝ × RunningStat × RunningStat → ℝ × RunningStat × RunningStat
  | 0, s => s
  | n + 1, (b, ra, ro) =>
      silenceLoop decay n
        (idleStep decay b, ra.push (idleStep decay b),
         ro.push (idleStep decay b))

/-- The activity loop: per active second, update `business` and push. -/
noncomputable def activityLoop (decay : ℝ) :
    ℕ → ℝ × RunningStat × RunningStat → ℝ × RunningStat × RunningStat
  | 0, s => s
  | n + 1, (b, ra, ro) =>
      activityLoop decay n
        (activeStep decay b, ra.push (activeStep decay b),
         ro.push (activeStep decay b))

/-- The bucket `rspa` selected for the episode: weekend array iff
`tm_wday` is 0 or 6, indexed by `tm_hour`. -/
noncomputable def bucketA (st : MState) (e : Ep) : RunningStat :=
  if e.wday = 0 ∨ e.wday = 6 then st.weekend e.hour else st.weekday e.hour

/-- The per-episode statistics update: `overall_events++` and the two
per-second loops pushing into `rspa` and `overall_stat`. -/
noncomputable def afterLoops (decay : ℝ) (st : MState) (e : Ep) : MState :=
  let res := activityLoop decay e.activity.toNat
    (silenceLoop decay e.silence.toNat (st.business, bucketA st e, st.overall))
  { business := res.1
  , weekday := if e.wday = 0 ∨ e.wday = 6 then st.weekday
      else Function.update st.weekday e.hour res.2.1
  , weekend := if e.wday = 0 ∨ e.wday = 6 then
      Function.update st.weekend e.hour res.2.1 else st.weekend
  , overall := res.2.2
  , overallEvents := st.overallEvents + 1
  , triggered := st.triggered }

/-- The neighbor bucket `rspb` used for interpolation: the next hour when
`minute ≥ 30` (wrapping hour 23 into the next day's class), else the
previous hour (wrapping hour 0 into the previous day's class). -/
noncomputable def bucketB (st : MState) (e : Ep) : RunningStat :=
  if 30 ≤ e.minute then
    if e.hour = (23 : Fin 24) then
      if e.wday = 5 ∨ e.wday = 6 then st.weekend 0 else st.weekday 0
    else
      if e.wday = 0 ∨ e.wday = 6 then st.weekend (e.hour + 1)
      else st.weekday (e.hour + 1)
  else
    if e.hour = (0 : Fin 24) then
      if e.wday = 0 ∨ e.wday = 1 then st.weekend 23 else st.weekday 23
    else
      if e.wday = 0 ∨ e.wday = 6 then st.weekend (e.hour - 1)
      else st.weekday (e.hour - 1)

/-- The interpolation weight of `rspa`:
`(90 - min)/60` forward, `(31 + min)/60` backward. -/
noncomputable def weightA (e : Ep) : ℝ :=
  if 30 ≤ e.minute then (90 - (e.minute : ℝ)) / 60
  else (31 + (e.minute : ℝ)) / 60

/-- `interpolated_mean`: the weighted bucket blend when both buckets have
more than 3600 observations, else the overall mean when it has more than
3600 observations, else the cold-start sentinel 1. -/
noncomputable def expectedMean (st : MState) (e : Ep) : ℝ :=
  if 3600 < (bucketA st e).n ∧ 3600 < (bucketB st e).n then
    weightA e * (bucketA st e).mean + (1 - weightA e) * (bucketB st e).mean
  else if 3600 < st.overall.n then st.overall.mean
  else 1

/-- `interpolated_stdev`, with the same fallback chain and sentinel 1. -/
noncomputable def expectedStdev (st : MState) (e : Ep) : ℝ :=
  if 3600 < (bucketA st e).n ∧ 3600 < (bucketB st e).n then
    weightA e * (bucketA st e).stdev + (1 - weightA e) * (bucketB st e).stdev
  else if 3600 < st.overall.n then st.overall.stdev
  else 1

/-- `p = hours / (overall_events * hours_between_notifications)` with
`hours = overall_stat.count() / 3600.`. -/
noncomputable def pOf (hbn : ℕ) (st : MState) : ℝ :=
  ((st.overall.n : ℝ) / 3600) / ((st.overallEvents : ℝ) * (hbn : ℝ))

/-- `threshold = interpolated_mean
      + standard_normal_inverse_cdf(1 - p) * interpolated_stdev`. -/
noncomputable def thresholdAt (hbn : ℕ) (st : MState) (e : Ep) : ℝ :=
  expectedMean st e
    + standard_normal_inverse_cdf (1 - pOf hbn st) * expectedStdev st e

/-- The hysteresis trigger evaluation: when idle, fire (and notify) iff
`business > threshold`; when triggered, return to idle iff
`business < interpolated_mean + interpolated_stdev`, never notifying. -/
noncomputable def triggerEval (hbn : ℕ) (st : MState) (e : Ep) :
    MState × Bool :=
  if st.triggered then
    if st.business < expectedMean st e + expectedStdev st e then
      ({ st with triggered := false }, false)
    else (st, false)
  else
    if thresholdAt hbn st e < st.business then
      ({ st with triggered := true }, true)
    else (st, false)

/-- One full iteration of the statistics block on a finished episode. -/
noncomputable def step (decay : ℝ) (hbn : ℕ) (st : MState) (e : Ep) :
    MState × Bool :=
  triggerEval hbn (afterLoops decay st e) e

/-- Process a list of episodes, collecting the notify decision of each. -/
noncomputable def runNotifies (decay : ℝ) (hbn : ℕ) :
    MState → List Ep → MState × List Bool
  | st, [] => (st, [])
  | st, e :: es =>
      let r := step decay hbn st e
      let rest := runNotifies decay hbn r.1 es
      (rest.1, r.2 :: rest.2)

/-- Total observed seconds of a list of episodes. -/
def totalSeconds (eps : List Ep) : ℕ :=
  (eps.map (fun e => e.silence.toNat + e.activity.toNat)).sum

end MagB

theorem silenceLoop_spec (decay : ℝ) (n : ℕ) :
    ∀ (b : ℝ) (ra ro : RunningStat),
      (MagB.silenceLoop decay n (b, ra, ro)).1 = (MagB.idleStep decay)^[n] b
      ∧ (MagB.silenceLoop decay n (b, ra, ro)).2.1.n = ra.n + n
      ∧ (MagB.silenceLoop decay n (b, ra, ro)).2.2.n = ro.n + n := by
  induction n with
  | zero => intro b ra ro; simp [MagB.silenceLoop]
  | succ m ih =>
      intro b ra ro
      obtain ⟨h1, h2, h3⟩ := ih (MagB.idleStep decay b)
        (ra.push (MagB.idleStep decay b)) (ro.push (MagB.idleStep decay b))
      refine ⟨?_, ?_, ?_⟩
      · rw [MagB.silenceLoop, h1, Function.iterate_succ_apply]
      · rw [MagB.silenceLoop, h2, RunningStat.push_n]; omega
      · rw [MagB.silenceLoop, h3, RunningStat.push_n]; omega

theorem activityLoop_spec (decay : ℝ) (n : ℕ) :
    ∀ (b : ℝ) (ra ro : RunningStat),
      (MagB.activityLoop decay n (b, ra, ro)).1 = (MagB.activeStep decay)^[n] b
      ∧ (MagB.activityLoop decay n (b, ra, ro)).2.1.n = ra.n + n
      ∧ (MagB.activityLoop decay n (b, ra, ro)).2.2.n = ro.n + n := by
  induction n with
  | zero => intro b ra ro; simp [MagB.activityLoop]
  | succ m ih =>
      intro b ra ro
      obtain ⟨h1, h2, h3⟩ := ih (MagB.activeStep decay b)
        (ra.push (MagB.activeStep decay b)) (ro.push (MagB.activeStep decay b))
      refine ⟨?_, ?_, ?_⟩
      · rw [MagB.activityLoop, h1, Function.iterate_succ_apply]
      · rw [MagB.activityLoop, h2, RunningStat.push_n]; omega
      · rw [MagB.activityLoop, h3, RunningStat.push_n]; omega

theorem loops_spec (decay : ℝ) (st : MagB.MState) (e : MagB.Ep) :
    (MagB.activityLoop decay e.activity.toNat
        (MagB.silenceLoop decay e.silence.toNat
          (st.business, MagB.bucketA st e, st.overall))).1
      = MagB.businessAfterEpisode decay st.business e.silence e.activity
    ∧ (MagB.activityLoop decay e.activity.toNat
        (MagB.silenceLoop decay e.silence.toNat
          (st.business, MagB.bucketA st e, st.overall))).2.1.n
      = (MagB.bucketA st e).n + (e.silence.toNat + e.activity.toNat)
    ∧ (MagB.activityLoop decay e.activity.toNat
        (MagB.silenceLoop decay e.silence.toNat
          (st.business, MagB.bucketA st e, st.overall))).2.2.n
      = st.overall.n + (e.silence.toNat + e.activity.toNat) := by
  obtain ⟨s1, s2, s3⟩ := silenceLoop_spec decay e.silence.toNat
    st.business (MagB.bucketA st e) st.overall
  set mid := MagB.silenceLoop decay e.silence.toNat
    (st.business, MagB.bucketA st e, st.overall) with hmid
  obtain ⟨a1, a2, a3⟩ := activityLoop_spec decay e.activity.toNat
    mid.1 mid.2.1 mid.2.2
  have hmid' : mid = (mid.1, mid.2.1, mid.2.2) := rfl
  rw [hmid'] at a1 a2 a3 ⊢
  refine ⟨?_, ?_, ?_⟩
  · rw [a1, s1]; rfl
  · rw [a2, s2]; omega
  · rw [a3, s3]; omega

theorem afterLoops_business (decay : ℝ) (st : MagB.MState) (e : MagB.Ep) :
    (MagB.afterLoops decay st e).business
      = MagB.businessAfterEpisode decay st.business e.silence e.activity := by
  unfold MagB.afterLoops
  exact (loops_spec decay st e).1

theorem afterLoops_overall_n (decay : ℝ) (st : MagB.MState) (e : MagB.Ep) :
    (MagB.afterLoops decay st e).overall.n
      = st.overall.n + (e.silence.toNat + e.activity.toNat) := by
  unfold MagB.afterLoops
  exact (loops_spec decay st e).2.2

theorem afterLoops_triggered (decay : ℝ) (st : MagB.MState) (e : MagB.Ep) :
    (MagB.afterLoops decay st e).triggered = st.triggered := rfl

theorem afterLoops_events (decay : ℝ) (st : MagB.MState) (e : MagB.Ep) :
    (MagB.afterLoops decay st e).overallEvents = st.overallEvents + 1 := rfl

theorem afterLoops_buckets_le (decay : ℝ) (st : MagB.MState) (e : MagB.Ep)
    (hwd : ∀ h, (st.weekday h).n ≤ st.overall.n)
    (hwe : ∀ h, (st.weekend h).n ≤ st.overall.n) :
    (∀ h, ((MagB.afterLoops decay st e).weekday h).n
        ≤ (MagB.afterLoops decay st e).overall.n)
    ∧ (∀ h, ((MagB.afterLoops decay st e).weekend h).n
        ≤ (MagB.afterLoops decay st e).overall.n) := by
  obtain ⟨-, h2, h3⟩ := loops_spec decay st e
  constructor <;> intro h <;> unfold MagB.afterLoops <;> simp only <;>
    rw [h3] <;> by_cases hcond : e.wday = 0 ∨ e.wday = 6
  · rw [if_pos hcond]
    exact le_trans (hwd h) (Nat.le_add_right _ _)
  · rw [if_neg hcond]
    rcases eq_or_ne h e.hour with rfl | hne
    · rw [Function.update_same, h2, MagB.bucketA, if_neg hcond]
      have := hwd e.hour
      omega
    · rw [Function.update_noteq hne]
      exact le_trans (hwd h) (Nat.le_add_right _ _)
  · rw [if_pos hcond]
    rcases eq_or_ne h e.hour with rfl | hne
    · rw [Function.update_same, h2, MagB.bucketA, if_pos hcond]
      have := hwe e.hour
      omega
    · rw [Function.update_noteq hne]
      exact le_trans (hwe h) (Nat.le_add_right _ _)
  · rw [if_neg hcond]
    exact le_trans (hwe h) (Nat.le_add_right _ _)

/-- C1: per evaluated episode — a notify event is emitted exactly on an
Idle-to-Triggered edge; from Idle the engine fires iff the activity level
strictly exceeds the computed threshold; from Triggered nothing is ever
emitted and the engine returns to Idle iff the activity level is strictly
below `expected_mean + expected_stdev` (one sigma), else it is unchanged. -/
theorem trigger_engine_behaviour (decay : ℝ) (hbn : ℕ) (st : MagB.MState)
    (e : MagB.Ep) :
    ((MagB.step decay hbn st e).2 = true
      ↔ (st.triggered = false ∧ (MagB.step decay hbn st e).1.triggered = true))
    ∧ (st.triggered = false →
        ((MagB.step decay hbn st e).1.triggered = true
          ↔ MagB.thresholdAt hbn (MagB.afterLoops decay st e) e
              < (MagB.afterLoops decay st e).business))
    ∧ (st.triggered = true →
        (MagB.step decay hbn st e).2 = false
        ∧ ((MagB.step decay hbn st e).1.triggered = false
            ↔ (MagB.afterLoops decay st e).business
                < MagB.expectedMean (MagB.afterLoops decay st e) e
                  + MagB.expectedStdev (MagB.afterLoops decay st e) e)) := by
  set st1 := MagB.afterLoops decay st e with hst1
  have htr : st1.triggered = st.triggered := rfl
  unfold MagB.step MagB.triggerEval
  rw [← hst1, htr]
  rcases hb : st.triggered
  · simp only [Bool.false_eq_true, if_false]
    by_cases hcmp : MagB.thresholdAt hbn st1 e < st1.business
    · rw [if_pos hcmp]
      refine ⟨by simp, fun _ => by simp [hcmp], fun hcon => by simp at hcon⟩
    · rw [if_neg hcmp]
      refine ⟨by simp [htr, hb], fun _ => by simp [htr, hb, hcmp],
        fun hcon => by simp [hb] at hcon⟩
  · simp only [if_true]
    by_cases hexit : st1.business
        < MagB.expectedMean st1 e + MagB.expectedStdev st1 e
    · rw [if_pos hexit]
      refine ⟨by simp, fun hcon => by simp at hcon, fun _ => ⟨rfl, ?_⟩⟩
      simp [hexit]
    · rw [if_neg hexit]
      refine ⟨?_, fun hcon => by simp at hcon, fun _ => ⟨rfl, ?_⟩⟩
      · simp [htr, hb]
      · simpa [htr, hb] using hexit

/-- An arbitrary state in the `Triggered` phase, for the C1 witness. -/
def exampleTriggeredState : MagB.MState :=
  { MagB.initState with triggered := true }

/-- Witness for C1: from a Triggered state no notify event is emitted. -/
theorem trigger_engine_behaviour_witness :
    (MagB.step (1 / 2) 168 exampleTriggeredState ⟨0, 0, 0, 0, 0⟩).2 = false :=
  ((trigger_engine_behaviour (1 / 2) 168 exampleTriggeredState
      ⟨0, 0, 0, 0, 0⟩).2.2 rfl).1

theorem businessAfterEpisode_bounds (d : ℝ) (hd0 : 0 ≤ d) (hd1 : d ≤ 1)
    (sil act : ℤ) :
    ∀ b : ℝ, 0 ≤ b → b ≤ 1 →
      0 ≤ MagB.businessAfterEpisode d b sil act
      ∧ MagB.businessAfterEpisode d b sil act ≤ 1 := by
  have hidle : ∀ n : ℕ, ∀ b : ℝ, 0 ≤ b → b ≤ 1 →
      0 ≤ (MagB.idleStep d)^[n] b ∧ (MagB.idleStep d)^[n] b ≤ 1 := by
    intro n
    induction n with
    | zero => intro b h0 h1; simpa using ⟨h0, h1⟩
    | succ m ih =>
        intro b h0 h1
        rw [Function.iterate_succ_apply]
        exact ih _ (by unfold MagB.idleStep; nlinarith)
          (by unfold MagB.idleStep; nlinarith)
  have hact : ∀ n : ℕ, ∀ b : ℝ, 0 ≤ b → b ≤ 1 →
      0 ≤ (MagB.activeStep d)^[n] b ∧ (MagB.activeStep d)^[n] b ≤ 1 := by
    intro n
    induction n with
    | zero => intro b h0 h1; simpa using ⟨h0, h1⟩
    | succ m ih =>
        intro b h0 h1
        rw [Function.iterate_succ_apply]
        exact ih _ (by unfold MagB.activeStep; nlinarith)
          (by unfold MagB.activeStep; nlinarith)
  intro b h0 h1
  unfold MagB.businessAfterEpisode
  obtain ⟨g0, g1⟩ := hidle sil.toNat b h0 h1
  exact hact act.toNat _ g0 g1

theorem bucketA_le (st : MagB.MState) (e : MagB.Ep)
    (hwd : ∀ h, (st.weekday h).n ≤ st.overall.n)
    (hwe : ∀ h, (st.weekend h).n ≤ st.overall.n) :
    (MagB.bucketA st e).n ≤ st.overall.n := by
  unfold MagB.bucketA
  split
  · exact hwe e.hour
  · exact hwd e.hour

theorem bucketB_le (st : MagB.MState) (e : MagB.Ep)
    (hwd : ∀ h, (st.weekday h).n ≤ st.overall.n)
    (hwe : ∀ h, (st.weekend h).n ≤ st.overall.n) :
    (MagB.bucketB st e).n ≤ st.overall.n := by
  unfold MagB.bucketB
  split <;> split <;> split <;> first | exact hwe _ | exact hwd _

theorem expected_sentinel (st : MagB.MState) (e : MagB.Ep)
    (hwd : ∀ h, (st.weekday h).n ≤ st.overall.n)
    (hwe : ∀ h, (st.weekend h).n ≤ st.overall.n)
    (hcold : st.overall.n ≤ 3600) :
    MagB.expectedMean st e = 1 ∧ MagB.expectedStdev st e = 1 := by
  have hA : ¬ (3600 < (MagB.bucketA st e).n
      ∧ 3600 < (MagB.bucketB st e).n) := by
    intro hcon
    have := bucketA_le st e hwd hwe
    omega
  have hO : ¬ (3600 < st.overall.n) := by omega
  constructor
  · unfold MagB.expectedMean
    rw [if_neg hA, if_neg hO]
  · unfold MagB.expectedStdev
    rw [if_neg hA, if_neg hO]

theorem step_cold (d : ℝ) (hbn : ℕ) (hd0 : 0 < d) (hd1 : d ≤ 1)
    (hbn2 : 2 ≤ hbn) (st : MagB.MState) (e : MagB.Ep)
    (htrig : st.triggered = false)
    (hb0 : 0 ≤ st.business) (hb1 : st.business ≤ 1)
    (hwd : ∀ h, (st.weekday h).n ≤ st.overall.n)
    (hwe : ∀ h, (st.weekend h).n ≤ st.overall.n)
    (hcnt : st.overall.n + (e.silence.toNat + e.activity.toNat) ≤ 3599) :
    MagB.step d hbn st e = (MagB.afterLoops d st e, false) := by
  set st1 := MagB.afterLoops d st e with hst1
  have hov : st1.overall.n
      = st.overall.n + (e.silence.toNat + e.activity.toNat) :=
    afterLoops_overall_n d st e
  obtain ⟨hwd1, hwe1⟩ := afterLoops_buckets_le d st e hwd hwe
  obtain ⟨hmean, hstdev⟩ := expected_sentinel st1 e hwd1 hwe1 (by omega)
  have hbus : 0 ≤ st1.business ∧ st1.business ≤ 1 := by
    rw [hst1, afterLoops_business]
    exact businessAfterEpisode_bounds d (le_of_lt hd0) hd1 _ _
      st.business hb0 hb1
  have hp0 : 0 ≤ MagB.pOf hbn st1 := by
    unfold MagB.pOf
    positivity
  have hp4 : MagB.pOf hbn st1 ≤ 3599 / 7200 := by
    unfold MagB.pOf
    have hnum : ((st1.overall.n : ℝ) / 3600) ≤ 3599 / 3600 := by
      have hnle : st1.overall.n ≤ 3599 := by omega
      have : ((st1.overall.n : ℝ)) ≤ 3599 := by exact_mod_cast hnle
      linarith
    have hden : (2 : ℝ) ≤ (st1.overallEvents : ℝ) * (hbn : ℝ) := by
      have he : (1 : ℝ) ≤ (st1.overallEvents : ℝ) := by
        have : 1 ≤ st1.overallEvents := by
          rw [hst1, afterLoops_events]; omega
        exact_mod_cast this
      have hh : (2 : ℝ) ≤ (hbn : ℝ) := by exact_mod_cast hbn2
      nlinarith
    have hnum0 : 0 ≤ ((st1.overall.n : ℝ) / 3600) := by positivity
    calc ((st1.overall.n : ℝ) / 3600) / ((st1.overallEvents : ℝ) * (hbn : ℝ))
        ≤ ((st1.overall.n : ℝ) / 3600) / 2 := by
          apply div_le_div_of_nonneg_left hnum0 (by norm_num) hden
      _ ≤ 3599 / 7200 := by linarith
  have hz : 0 ≤ standard_normal_inverse_cdf (1 - MagB.pOf hbn st1) :=
    inverse_cdf_one_sub_nonneg hp0 hp4
  have hthr : ¬ (MagB.thresholdAt hbn st1 e < st1.business) := by
    unfold MagB.thresholdAt
    rw [hmean, hstdev]
    push_neg
    nlinarith [hbus.2]
  have htr1 : st1.triggered = false := by
    rw [hst1, afterLoops_triggered]; exact htrig
  unfold MagB.step MagB.triggerEval
  rw [← hst1, htr1]
  simp only [Bool.false_eq_true, if_false]
  rw [if_neg hthr]

theorem totalSeconds_cons (e : MagB.Ep) (es : List MagB.Ep) :
    MagB.totalSeconds (e :: es)
      = (e.silence.toNat + e.activity.toNat) + MagB.totalSeconds es := by
  unfold MagB.totalSeconds
  simp

theorem run_cold (d : ℝ) (hbn : ℕ) (hd0 : 0 < d) (hd1 : d ≤ 1)
    (hbn2 : 2 ≤ hbn) :
    ∀ (eps : List MagB.Ep) (st : MagB.MState),
      st.triggered = false → 0 ≤ st.business → st.business ≤ 1 →
      (∀ h, (st.weekday h).n ≤ st.overall.n) →
      (∀ h, (st.weekend h).n ≤ st.overall.n) →
      st.overall.n + MagB.totalSeconds eps ≤ 3599 →
      (∀ b ∈ (MagB.runNotifies d hbn st eps).2, b = false)
      ∧ (MagB.runNotifies d hbn st eps).1.triggered = false := by
  intro eps
  induction eps with
  | nil =>
      intro st htrig _ _ _ _ _
      exact ⟨by intro b hb; simp [MagB.runNotifies] at hb, by
        simpa [MagB.runNotifies] using htrig⟩
  | cons e es ih =>
      intro st htrig hb0 hb1 hwd hwe hcnt
      rw [totalSeconds_cons] at hcnt
      have hstep := step_cold d hbn hd0 hd1 hbn2 st e htrig hb0 hb1 hwd hwe
        (by omega)
      set st1 := MagB.afterLoops d st e with hst1
      have hov : st1.overall.n
          = st.overall.n + (e.silence.toNat + e.activity.toNat) :=
        afterLoops_overall_n d st e
      obtain ⟨hwd1, hwe1⟩ := afterLoops_buckets_le d st e hwd hwe
      have hbus : 0 ≤ st1.business ∧ st1.business ≤ 1 := by
        rw [hst1, afterLoops_business]
        exact businessAfterEpisode_bounds d (le_of_lt hd0) hd1 _ _
          st.business hb0 hb1
      have htr1 : st1.triggered = false := by
        rw [hst1, afterLoops_triggered]; exact htrig
      obtain ⟨ih1, ih2⟩ := ih st1 htr1 hbus.1 hbus.2 hwd1 hwe1 (by omega)
      have hrun : MagB.runNotifies d hbn st (e :: es)
          = ((MagB.runNotifies d hbn st1 es).1,
             false :: (MagB.runNotifies d hbn st1 es).2) := by
        rw [MagB.runNotifies, hstep]
      rw [hrun]
      refine ⟨?_, ih2⟩
      intro b hb
      rcases List.mem_cons.mp hb with rfl | hmem
      · rfl
      · exact ih1 b hmem

/-- C3 (amended): starting from a fresh state, with the decay constant in
`(0,1]` (all CLI-configurable values `1/a` are) and a notification return
period of at least 2 hours (the default is 168; only a 1-hour period
breaks suppression), any episode stream with fewer than 3600 cumulative
observed seconds produces no notification and never leaves the Idle
state. -/
theorem cold_start_suppression (decay : ℝ) (hbn : ℕ) (hd0 : 0 < decay)
    (hd1 : decay ≤ 1) (hbn2 : 2 ≤ hbn) (eps : List MagB.Ep)
    (hsec : MagB.totalSeconds eps < 3600) :
    (∀ b ∈ (MagB.runNotifies decay hbn MagB.initState eps).2, b = false)
    ∧ (MagB.runNotifies decay hbn MagB.initState eps).1.triggered = false :=
  run_cold decay hbn hd0 hd1 hbn2 eps MagB.initState rfl le_rfl
    (by norm_num [MagB.initState]) (fun h => le_refl _) (fun h => le_refl _)
    (by
      have : MagB.initState.overall.n = 0 := rfl
      omega)

/-- Witness for the amended C3: a 20-second stream under the default
return period 168 yields no notification. -/
theorem cold_start_suppression_witness :
    (∀ b ∈ (MagB.runNotifies (1 / 2) 168 MagB.initState
        [⟨0, 0, 0, 10, 10⟩]).2, b = false)
    ∧ (MagB.runNotifies (1 / 2) 168 MagB.initState
        [⟨0, 0, 0, 10, 10⟩]).1.triggered = false :=
  cold_start_suppression (1 / 2) 168 (by norm_num) (by norm_num)
    (by norm_num) [⟨0, 0, 0, 10, 10⟩]
    (by simp [MagB.totalSeconds])

/-- For a tiny exceedance probability the z-score is large: at
`p = 1/3600`, `inverse_cdf(p) < -1`. -/
theorem inverse_cdf_tiny_p :
    standard_normal_inverse_cdf (1 / 3600) < -1 := by
  unfold standard_normal_inverse_cdf
  rw [if_neg (by push_neg; constructor <;> norm_num), if_pos (by norm_num)]
  have hlog : Real.log (1 / 3600 : ℝ) = - Real.log 3600 := by
    rw [show (1 / 3600 : ℝ) = (3600 : ℝ)⁻¹ by norm_num, Real.log_inv]
  have hlb : Real.log 2048 < Real.log 3600 :=
    Real.log_lt_log (by norm_num) (by norm_num)
  have h2048 : Real.log 2048 = 11 * Real.log 2 := by
    rw [show (2048 : ℝ) = 2 ^ (11 : ℕ) by norm_num, Real.log_pow]
    push_cast
    ring
  have harg : 15.2 ≤ -2 * Real.log (1 / 3600 : ℝ) := by
    rw [hlog]
    have := Real.log_two_gt_d9
    nlinarith
  have harg0 : (0 : ℝ) ≤ -2 * Real.log (1 / 3600) := by linarith
  have hgt := ratApprox_gt_one (Real.sqrt_nonneg (-2 * Real.log (1 / 3600)))
    (by rw [Real.sq_sqrt harg0]; exact harg)
  linarith

/-- C3 (counterexample): with a return period of 1 hour (a legal CLI
argument) the sentinel does not make the threshold unreachable: one silent
3599-second episode — 3599 < 3600 cumulative seconds of history — makes
`p = 3599/3600`, `inverse_cdf(1-p) < -1`, hence `threshold = 1 + z < 0`,
and a notification fires from activity level 0. -/
theorem cold_start_notification_at_return_period_one :
    MagB.totalSeconds [⟨0, 0, 0, 3599, 0⟩] < 3600
    ∧ (MagB.runNotifies (1 / 600) 1 MagB.initState
        [⟨0, 0, 0, 3599, 0⟩]).2 = [true] := by
  constructor
  · norm_num [MagB.totalSeconds]
  · have hwd0 : ∀ h, (MagB.initState.weekday h).n
        ≤ MagB.initState.overall.n := fun h => le_refl _
    have hwe0 : ∀ h, (MagB.initState.weekend h).n
        ≤ MagB.initState.overall.n := fun h => le_refl _
    have hov : (MagB.afterLoops (1 / 600) MagB.initState
        (⟨0, 0, 0, 3599, 0⟩ : MagB.Ep)).overall.n = 3599 := by
      rw [afterLoops_overall_n]
      rfl
    obtain ⟨hwd1, hwe1⟩ := afterLoops_buckets_le (1 / 600) MagB.initState
      (⟨0, 0, 0, 3599, 0⟩ : MagB.Ep) hwd0 hwe0
    obtain ⟨hmean, hstdev⟩ := expected_sentinel
      (MagB.afterLoops (1 / 600) MagB.initState (⟨0, 0, 0, 3599, 0⟩ : MagB.Ep))
      (⟨0, 0, 0, 3599, 0⟩ : MagB.Ep) hwd1 hwe1 (by omega)
    have hbus : (MagB.afterLoops (1 / 600) MagB.initState
        (⟨0, 0, 0, 3599, 0⟩ : MagB.Ep)).business = 0 := by
      rw [afterLoops_business,
        show MagB.initState.business = (0 : ℝ) from rfl]
      unfold MagB.businessAfterEpisode
      rw [show ((0 : ℤ)).toNat = 0 from rfl]
      simp only [Function.iterate_zero_apply]
      exact Function.iterate_fixed (by unfold MagB.idleStep; ring) _
    have hpval : MagB.pOf 1 (MagB.afterLoops (1 / 600) MagB.initState
        (⟨0, 0, 0, 3599, 0⟩ : MagB.Ep)) = 3599 / 3600 := by
      unfold MagB.pOf
      rw [hov, afterLoops_events]
      norm_num [MagB.initState]
    have hcmp : MagB.thresholdAt 1
        (MagB.afterLoops (1 / 600) MagB.initState
          (⟨0, 0, 0, 3599, 0⟩ : MagB.Ep)) (⟨0, 0, 0, 3599, 0⟩ : MagB.Ep)
        < (MagB.afterLoops (1 / 600) MagB.initState
            (⟨0, 0, 0, 3599, 0⟩ : MagB.Ep)).business := by
      unfold MagB.thresholdAt
      rw [hmean, hstdev, hbus, hpval,
        show (1 : ℝ) - 3599 / 3600 = 1 / 3600 by norm_num]
      have := inverse_cdf_tiny_p
      linarith
    have hstep2 : (MagB.step (1 / 600) 1 MagB.initState
        (⟨0, 0, 0, 3599, 0⟩ : MagB.Ep)).2 = true := by
      unfold MagB.step MagB.triggerEval
      rw [afterLoops_triggered]
      simp only [show MagB.initState.triggered = false from rfl,
        Bool.false_eq_true, if_false]
      rw [if_pos hcmp]
    simp only [MagB.runNotifies]
    rw [hstep2]
